import Mathlib

/-!
Verification development for the candidate/span data model of
`snorkel/models/candidate.py`.

The Python source defines:
- `CandidateSet`: a named ordered collection of candidates with
  `append`, `remove`, `__len__`, `__getitem__`;
- `Candidate`: abstract base with identity and a discriminator;
- `Ngram`: a character-bounded span over a `Context`, owning the
  char/word index algebra (`char_to_word_index`, `word_to_char_index`,
  `get_attrib_tokens`, `get_attrib_span`, `get_span`, slicing via
  `__getitem__`, structural `__eq__`/`__hash__`);
- `NgramPair`: an ordered pair of Ngrams with 2-element access.

We embed these shallowly: Python ints become `Int`, Python sequences
become `List`, fallible operations return `Option`/`Except`, and
Python slicing semantics (negative indices, clamping) are modelled
explicitly.
-/

namespace Snorkel

/-- Python exception kinds raised by the code under study. -/
inductive PyErr where
  | notImplementedError
  | keyError
  | valueError
  | indexError
  deriving Repr, DecidableEq

/-- Modelled from the spec: the `Context` collaborator (defined in the
repository's `context.py`, not under `src/`). Per the spec it exposes
`text` (full string), `char_offsets` (ordered sequence of word-start
character indices) and named per-word attribute sequences; its identity
is a unique integer id. Attribute sequences are modelled as an
association list from attribute name to token list. -/
structure Context where
  id : Nat
  text : String
  char_offsets : List Int
  attribs : List (String × List String)
  deriving Repr, DecidableEq

/-- Modelled from the spec: equality of `Context` objects as used by
`Ngram.__eq__` (`self.context == other.context`) is Context identity
("two Ngrams are equal iff same Context identity"). -/
def contextBeq (c1 c2 : Context) : Bool :=
  c1.id == c2.id

/-- Modelled from the spec: `hash(self.context)` is a function of the
Context's identity. -/
def contextHash (c : Context) : Int :=
  c.id

/-- `context.__getattribute__(a)`: the named per-word attribute
sequence, or an attribute-error (`none`) when absent. -/
def contextAttrib (c : Context) (a : String) : Option (List String) :=
  c.attribs.lookup a

/-- The `Ngram` candidate: a span identified by its Context and
inclusive character start/end offsets, plus fields excluded from
equality (candidate-set membership and the pickled `meta` payload). -/
structure Ngram where
  context : Context
  char_start : Int
  char_end : Int
  candidate_set_id : Option Nat := none
  meta : Option String := none
  deriving Repr, DecidableEq

/-- `NgramPair`: an ordered pair of Ngram candidates. -/
structure NgramPair where
  ngram0 : Ngram
  ngram1 : Ngram
  deriving Repr, DecidableEq

/-- `Ngram.__len__`: `self.char_end - self.char_start + 1`. -/
def ngramLen (g : Ngram) : Int :=
  g.char_end - g.char_start + 1

/-- `Ngram.__eq__`: structural comparison of context, char_start and
char_end (other fields are not consulted). -/
def ngramEq (g other : Ngram) : Bool :=
  contextBeq g.context other.context
    && g.char_start == other.char_start
    && g.char_end == other.char_end

/-- `Ngram.__hash__`: `hash(self.context) + hash(self.char_start) +
hash(self.char_end)`; the hash of a (small) Python int is the int
itself. -/
def ngramHash (g : Ngram) : Int :=
  contextHash g.context + g.char_start + g.char_end

/-- The loop body of `Ngram.char_to_word_index`: enumerate the offsets
with index `i`; return `i` on an exact match, `i - 1` on overshoot, and
the last index when the loop runs out. Returns `none` exactly when the
offsets list is empty (Python returns its initial `i = None`). -/
def cwiGo (ci : Int) : Nat → List Int → Option Int
  | _, [] => none
  | i, co :: rest =>
      if ci = co then some i
      else if ci < co then some ((i : Int) - 1)
      else match rest with
        | [] => some i
        | _ :: _ => cwiGo ci (i + 1) rest

/-- `Ngram.char_to_word_index(ci)`: index of the word containing the
character at absolute index `ci`. -/
def char_to_word_index (g : Ngram) (ci : Int) : Option Int :=
  cwiGo ci 0 g.context.char_offsets

/-- Python sequence subscript `xs[i]` with an int index: negative
indices count from the end; out of range raises `IndexError` (`none`). -/
def pyIntIndex {α : Type} (xs : List α) (i : Int) : Option α :=
  let j : Int := if i < 0 then (xs.length : Int) + i else i
  if 0 ≤ j then xs.get? j.toNat else none

/-- `Ngram.word_to_char_index(wi)`: `self.context.char_offsets[wi]`. -/
def word_to_char_index (g : Ngram) (wi : Int) : Option Int :=
  pyIntIndex g.context.char_offsets wi

/-- `Ngram.get_word_start()`: `char_to_word_index(char_start)`. -/
def get_word_start (g : Ngram) : Option Int :=
  char_to_word_index g g.char_start

/-- `Ngram.get_word_end()`: `char_to_word_index(char_end)`. -/
def get_word_end (g : Ngram) : Option Int :=
  char_to_word_index g g.char_end

/-- `Ngram.get_n()`: `get_word_end() - get_word_start() + 1`. -/
def get_n (g : Ngram) : Option Int :=
  match get_word_start g, get_word_end g with
  | some ws, some we => some (we - ws + 1)
  | _, _ => none

/-- `Ngram.get_sent_offset()`: `self.context.char_offsets[0]`
(raises `IndexError` on an empty offsets list). -/
def get_sent_offset (g : Ngram) : Option Int :=
  g.context.char_offsets.head?

/-- `Ngram.get_sent_char_start()`: `char_start - get_sent_offset()`. -/
def get_sent_char_start (g : Ngram) : Option Int :=
  (get_sent_offset g).map (fun off => g.char_start - off)

/-- `Ngram.get_sent_char_end()`: `char_end - get_sent_offset()`. -/
def get_sent_char_end (g : Ngram) : Option Int :=
  (get_sent_offset g).map (fun off => g.char_end - off)

/-- Normalisation of one bound of a Python slice `xs[a:b]` over a
sequence of length `len`: negative bounds count from the end, then both
are clamped into `[0, len]`. -/
def pySliceBound (len : Nat) (i : Int) : Nat :=
  if i < 0 then ((len : Int) + i).toNat else min i.toNat len

/-- Python list slice `xs[a:b]` (step 1). -/
def pyListSlice {α : Type} (xs : List α) (a b : Int) : List α :=
  (xs.drop (pySliceBound xs.length a)).take
    (pySliceBound xs.length b - pySliceBound xs.length a)

/-- Python string slice `s[a:b]` (step 1). -/
def pyStrSlice (s : String) (a b : Int) : String :=
  ⟨pyListSlice s.data a b⟩

/-- Python `sep.join(tokens)`. -/
def sepJoin (sep : String) : List String → String
  | [] => ""
  | [t] => t
  | t :: rest => t ++ sep ++ sepJoin sep rest

/-- `Ngram.get_attrib_tokens(a)`: the attribute sequence sliced by
`[get_word_start() : get_word_end() + 1]`; `none` when a word index is
`None` (Python would raise on slicing with `None` arithmetic) or the
attribute is absent. -/
def get_attrib_tokens (g : Ngram) (a : String) : Option (List String) :=
  match contextAttrib g.context a, get_word_start g, get_word_end g with
  | some toks, some ws, some we => some (pyListSlice toks ws (we + 1))
  | _, _, _ => none

/-- `Ngram.get_attrib_span(a, sep)`: for `a == 'words'`, the raw text
slice `text[get_sent_char_start() : get_sent_char_end() + 1]`;
otherwise `sep.join(get_attrib_tokens(a))`. -/
def get_attrib_span (g : Ngram) (a : String) (sep : String) : Option String :=
  if a = "words" then
    match get_sent_char_start g, get_sent_char_end g with
    | some scs, some sce => some (pyStrSlice g.context.text scs (sce + 1))
    | _, _ => none
  else
    (get_attrib_tokens g a).map (sepJoin sep)

/-- `Ngram.get_span(sep)`: `get_attrib_span('words', sep)`. -/
def get_span (g : Ngram) (sep : String) : Option String :=
  get_attrib_span g "words" sep

/-- The slice arm of `Ngram.__getitem__`: relative char-range slicing.
A missing start defaults to `char_start`, otherwise `char_start + s`;
a missing stop keeps `char_end`, a non-negative stop gives
`char_start + stop - 1`, a negative stop gives `char_end + stop`.
Returns a new Ngram over the same context (meta and candidate-set
membership are not propagated). -/
def ngramSlice (g : Ngram) (start stop : Option Int) : Ngram :=
  let cs : Int :=
    match start with
    | none => g.char_start
    | some s => g.char_start + s
  let ce : Int :=
    match stop with
    | none => g.char_end
    | some e => if 0 ≤ e then g.char_start + e - 1 else g.char_end + e
  { context := g.context, char_start := cs, char_end := ce }

/-- A Python subscript key: either a slice object or an int. -/
inductive PyKey where
  | pySlice (start stop : Option Int)
  | pyInt (i : Int)
  deriving Repr, DecidableEq

/-- `Ngram.__getitem__(key)`: slices produce a new Ngram; any other key
raises `NotImplementedError`. -/
def ngramGetItem (g : Ngram) (key : PyKey) : Except PyErr Ngram :=
  match key with
  | .pySlice s e => .ok (ngramSlice g s e)
  | .pyInt _ => .error .notImplementedError

/-- `NgramPair.__getitem__(key)`: `0` gives `ngram0`, `1` gives
`ngram1`, anything else raises `KeyError`. -/
def ngramPairGetItem (p : NgramPair) (key : PyKey) : Except PyErr Ngram :=
  match key with
  | .pyInt 0 => .ok p.ngram0
  | .pyInt 1 => .ok p.ngram1
  | _ => .error .keyError

/-- `CandidateSet.append(item)`: appends to the owned candidate list. -/
def csAppend (candidates : List Ngram) (c : Ngram) : List Ngram :=
  candidates ++ [c]

/-- Python `list.remove(x)`: delete the first element comparing equal
to `x` (Ngram equality is `ngramEq`); raises `ValueError` (`none`) when
no element matches. `CandidateSet.remove` delegates to this. -/
def csRemove (c : Ngram) : List Ngram → Option (List Ngram)
  | [] => none
  | x :: rest =>
      if ngramEq x c then some rest
      else (csRemove c rest).map (x :: ·)

/-- `CandidateSet.__len__`: length of the owned candidate list. -/
def csLen (candidates : List Ngram) : Nat :=
  candidates.length

/-- Strictly increasing offset sequences (the Context invariant). -/
def strictlyIncreasing : List Int → Bool
  | [] => true
  | [_] => true
  | a :: b :: rest => a < b && strictlyIncreasing (b :: rest)

/-- The substring of `s` from character position `a` to position `b`
inclusive: the spec-side notion of an inclusive text span. -/
def inclusiveSubstr (s : String) (a b : Int) : String :=
  ⟨(s.data.drop a.toNat).take (b - a + 1).toNat⟩

/-- The example Context of the spec: `text="The quick fox jumps"`,
`char_offsets=[0,4,10,14]`, with its word tokens as the `words`
attribute sequence. -/
def exCtx : Context where
  id := 7
  text := "The quick fox jumps"
  char_offsets := [0, 4, 10, 14]
  attribs := [("words", ["The", "quick", "fox", "jumps"]),
              ("poses", ["DT", "JJ", "NN", "VBZ"])]

/-- The example Ngram of the spec: `char_start=4`, `char_end=12`. -/
def exNgram : Ngram where
  context := exCtx
  char_start := 4
  char_end := 12

/-- A second Ngram over the example Context, for container tests. -/
def exNgramB : Ngram where
  context := exCtx
  char_start := 14
  char_end := 18

/-- An example NgramPair. -/
def exPair : NgramPair where
  ngram0 := exNgram
  ngram1 := exNgramB

/-- Ngram equality is reflexive. -/
theorem ngramEq_refl (g : Ngram) : ngramEq g g = true := by
  simp [ngramEq, contextBeq]

section Lemmas

variable {ci : Int}

/-- Tail of a strictly increasing list is strictly increasing. -/
theorem strictlyIncreasing_tail {a : Int} {l : List Int}
    (h : strictlyIncreasing (a :: l) = true) : strictlyIncreasing l = true := by
  cases l with
  | nil => rfl
  | cons b rest =>
      simp only [strictlyIncreasing, Bool.and_eq_true] at h
      exact h.2

/-- Head of a strictly increasing list is below every later element. -/
theorem strictlyIncreasing_head_lt {a : Int} {l : List Int}
    (h : strictlyIncreasing (a :: l) = true) :
    ∀ x ∈ l, a < x := by
  induction l generalizing a with
  | nil => intro x hx; cases hx
  | cons b rest ih =>
      intro x hx
      simp only [strictlyIncreasing, Bool.and_eq_true, decide_eq_true_eq] at h
      rcases List.mem_cons.mp hx with rfl | hmem
      · exact h.1
      · exact h.1.trans (ih h.2 x hmem)

/-- The element reported by `getLast?` is a member of the list. -/
theorem mem_of_getLast?_eq {l : List Int} {o : Int}
    (h : l.getLast? = some o) : o ∈ l := by
  induction l with
  | nil => simp at h
  | cons a rest ih =>
      cases rest with
      | nil =>
          simp only [List.getLast?_singleton, Option.some.injEq] at h
          simp [h]
      | cons b rest2 =>
          have h2 : (b :: rest2).getLast? = some o := by
            rw [List.getLast?_cons_cons] at h
            exact h
          exact List.mem_cons_of_mem a (ih h2)

/-- One step of the `char_to_word_index` scan when the current offset
is strictly below `ci` and more offsets remain. -/
theorem cwiGo_step {co b : Int} (rest2 : List Int) (i : Nat)
    (hne : ¬ ci = co) (hnlt : ¬ ci < co) :
    cwiGo ci i (co :: b :: rest2) = cwiGo ci (i + 1) (b :: rest2) := by
  show (if ci = co then some (i : Int)
        else if ci < co then some ((i : Int) - 1)
        else cwiGo ci (i + 1) (b :: rest2)) = cwiGo ci (i + 1) (b :: rest2)
  rw [if_neg hne, if_neg hnlt]

/-- The scan of `char_to_word_index` hits an exact offset: starting the
enumeration at `i`, the offset stored at position `k` is mapped to
index `i + k`. -/
theorem cwiGo_exact (l : List Int) (i k : Nat) (h : k < l.length)
    (hinc : strictlyIncreasing l = true) :
    cwiGo (l.get ⟨k, h⟩) i l = some ((i : Int) + k) := by
  induction l generalizing i k with
  | nil => simp at h
  | cons co rest ih =>
      cases k with
      | zero => simp [cwiGo]
      | succ j =>
          have hj : j < rest.length := by simpa using h
          have hlt : co < rest.get ⟨j, hj⟩ :=
            strictlyIncreasing_head_lt hinc _ (List.get_mem rest j hj)
          have hget : (co :: rest).get ⟨j + 1, h⟩ = rest.get ⟨j, hj⟩ := rfl
          rw [hget]
          have hne : ¬ (rest.get ⟨j, hj⟩ = co) := by omega
          have hnlt : ¬ (rest.get ⟨j, hj⟩ < co) := by omega
          cases rest with
          | nil => simp at hj
          | cons b rest2 =>
              rw [cwiGo_step rest2 i hne hnlt]
              rw [ih (i + 1) j hj (strictlyIncreasing_tail hinc)]
              congr 1
              push_cast
              ring

/-- The scan of `char_to_word_index` past the last offset: when `ci` is
at least the last element, the loop falls through and returns the final
enumeration index. -/
theorem cwiGo_last (l : List Int) (o : Int) (hlast : l.getLast? = some o)
    (hinc : strictlyIncreasing l = true) (hge : o ≤ ci) :
    ∀ i : Nat, cwiGo ci i l = some ((i : Int) + l.length - 1) := by
  induction l with
  | nil => simp at hlast
  | cons co rest ih =>
      intro i
      cases rest with
      | nil =>
          have ho : co = o := by simpa using hlast
          subst ho
          by_cases hc : ci = co
          · simp [cwiGo, hc]
          · have hnlt : ¬ (ci < co) := by omega
            simp [cwiGo, hc, hnlt]
      | cons b rest2 =>
          have hlast2 : (b :: rest2).getLast? = some o := by
            rw [List.getLast?_cons_cons] at hlast
            exact hlast
          have hmem : o ∈ b :: rest2 := mem_of_getLast?_eq hlast2
          have hlt : co < o := strictlyIncreasing_head_lt hinc o hmem
          have hne : ¬ (ci = co) := by omega
          have hnlt : ¬ (ci < co) := by omega
          rw [cwiGo_step rest2 i hne hnlt]
          rw [ih hlast2 (strictlyIncreasing_tail hinc) (i + 1)]
          congr 1
          simp only [List.length_cons]
          push_cast
          ring

end Lemmas

/-- C1: Slicing an Ngram `g` with `char_start = cs`, `char_end = ce` by
a relative character range yields a new Ngram over the same Context
with: `char_start = cs` for a missing start and `cs + s` otherwise;
`char_end = ce` for a missing stop, `cs + e - 1` for a non-negative
stop `e`, and `ce + e` for a negative stop `e`. In particular `g[1:]`
has bounds `(cs + 1, ce)` and `g[:-1]` has bounds `(cs, ce - 1)`. The
receiver and its Context are left unchanged (slicing is a pure
constructor call in the source, which the functional embedding
reflects: the output merely references `g.context`). -/
theorem c1_slice_bounds (g : Ngram) (start stop : Option Int) (s e : Int) :
    (ngramSlice g start stop).context = g.context
    ∧ (ngramSlice g none stop).char_start = g.char_start
    ∧ (ngramSlice g (some s) stop).char_start = g.char_start + s
    ∧ (ngramSlice g start none).char_end = g.char_end
    ∧ (0 ≤ e → (ngramSlice g start (some e)).char_end = g.char_start + e - 1)
    ∧ (e < 0 → (ngramSlice g start (some e)).char_end = g.char_end + e)
    ∧ (ngramSlice g (some 1) none).char_start = g.char_start + 1
    ∧ (ngramSlice g (some 1) none).char_end = g.char_end
    ∧ (ngramSlice g none (some (-1))).char_start = g.char_start
    ∧ (ngramSlice g none (some (-1))).char_end = g.char_end - 1 := by
  refine ⟨rfl, rfl, rfl, rfl, ?_, ?_, rfl, rfl, rfl, ?_⟩
  · intro he
    simp [ngramSlice, he]
  · intro he
    have hne : ¬ (0 ≤ e) := by omega
    simp [ngramSlice, hne]
  · show (if (0 : Int) ≤ -1 then g.char_start + -1 - 1 else g.char_end + -1)
        = g.char_end - 1
    rw [if_neg (by norm_num)]
    ring

/-- Witness for C1 at the example Ngram, with a non-negative and a
negative stop. -/
theorem c1_slice_bounds_witness :
    (ngramSlice exNgram none (some 6)).char_end = exNgram.char_start + 6 - 1
    ∧ (ngramSlice exNgram none (some (-1))).char_end = exNgram.char_end + (-1) :=
  ⟨(c1_slice_bounds exNgram none (some 6) 0 6).2.2.2.2.1 (by norm_num),
   (c1_slice_bounds exNgram none (some (-1)) 0 (-1)).2.2.2.2.2.1 (by norm_num)⟩

/-- C4: on the spec's concrete example (Context text
`"The quick fox jumps"`, offsets `[0,4,10,14]`, Ngram bounds `(4,12)`)
the word bounds are `1` and `2`, the word count is `2`, and the span is
`"quick fox"`. -/
theorem c4_concrete_example :
    get_word_start exNgram = some 1
    ∧ get_word_end exNgram = some 2
    ∧ get_n exNgram = some 2
    ∧ get_span exNgram " " = some "quick fox" := by
  refine ⟨rfl, rfl, rfl, ?_⟩
  decide

/-- C6: Ngram equality is structural — true exactly when the Context
identities, `char_start` and `char_end` agree (candidate-set membership
and metadata excluded, as the criterion never consults them); equal
Ngrams hash equal; and a difference in any one of the three compared
fields falsifies equality. -/
theorem c6_structural_equality (g other : Ngram) :
    (ngramEq g other = true ↔
      (g.context.id = other.context.id
        ∧ g.char_start = other.char_start
        ∧ g.char_end = other.char_end))
    ∧ (ngramEq g other = true → ngramHash g = ngramHash other)
    ∧ (g.context.id ≠ other.context.id → ngramEq g other = false)
    ∧ (g.char_start ≠ other.char_start → ngramEq g other = false)
    ∧ (g.char_end ≠ other.char_end → ngramEq g other = false) := by
  have hiff : ngramEq g other = true ↔
      (g.context.id = other.context.id
        ∧ g.char_start = other.char_start
        ∧ g.char_end = other.char_end) := by
    simp [ngramEq, contextBeq, and_assoc]
  refine ⟨hiff, ?_, ?_, ?_, ?_⟩
  · intro h
    obtain ⟨h1, h2, h3⟩ := hiff.mp h
    simp [ngramHash, contextHash, h1, h2, h3]
  · intro h
    rcases Bool.eq_false_or_eq_true (ngramEq g other) with ht | hf
    pick_goal 2
    · exact hf
    · exact absurd (hiff.mp ht).1 h
  · intro h
    rcases Bool.eq_false_or_eq_true (ngramEq g other) with ht | hf
    pick_goal 2
    · exact hf
    · exact absurd (hiff.mp ht).2.1 h
  · intro h
    rcases Bool.eq_false_or_eq_true (ngramEq g other) with ht | hf
    pick_goal 2
    · exact hf
    · exact absurd (hiff.mp ht).2.2 h

/-- Witness for C6: two independently built Ngrams with identical
(Context, char_start, char_end) compare equal and hash equal; changing
`char_start` breaks equality. -/
theorem c6_structural_equality_witness :
    ngramHash { context := exCtx, char_start := 4, char_end := 12 : Ngram }
      = ngramHash exNgram
    ∧ ngramEq exNgramB exNgram = false :=
  ⟨(c6_structural_equality
      { context := exCtx, char_start := 4, char_end := 12 } exNgram).2.1
      (by decide),
   (c6_structural_equality exNgramB exNgram).2.2.2.1 (by decide)⟩

/-- C7: indexing an Ngram with a non-slice (int) key raises
`NotImplementedError`; indexing an NgramPair with `0` returns `ngram0`,
with `1` returns `ngram1`, and with any other key — another int or a
slice — raises `KeyError`. -/
theorem c7_access_errors (g : Ngram) (p : NgramPair) (i : Int)
    (s e : Option Int) :
    ngramGetItem g (.pyInt i) = .error .notImplementedError
    ∧ ngramPairGetItem p (.pyInt 0) = .ok p.ngram0
    ∧ ngramPairGetItem p (.pyInt 1) = .ok p.ngram1
    ∧ (i ≠ 0 → i ≠ 1 → ngramPairGetItem p (.pyInt i) = .error .keyError)
    ∧ ngramPairGetItem p (.pySlice s e) = .error .keyError := by
  refine ⟨rfl, rfl, rfl, ?_, rfl⟩
  intro h0 h1
  show (match PyKey.pyInt i with
        | .pyInt 0 => Except.ok p.ngram0
        | .pyInt 1 => Except.ok p.ngram1
        | _ => Except.error PyErr.keyError) = Except.error PyErr.keyError
  rcases i with (_ | _ | n) | (_ | n)
  · exact absurd rfl h0
  · exact absurd rfl h1
  · rfl
  · rfl
  · rfl

/-- Witness for C7 at the example pair and key 5. -/
theorem c7_access_errors_witness :
    ngramPairGetItem exPair (.pyInt 5) = .error .keyError :=
  (c7_access_errors exNgram exPair 5 none none).2.2.2.1
    (by decide) (by decide)

/-- C8 counterexample: the claim "no Ngram with char_start > char_end
can be successfully constructed, whether built directly or derived via
slicing" is false — slicing the example Ngram with stop `0` succeeds
(no error is raised) and returns an Ngram whose `char_start` (4)
exceeds its `char_end` (3); direct construction likewise performs no
check. -/
theorem c8_counterexample :
    (ngramGetItem exNgram (.pySlice none (some 0))).isOk = true
    ∧ (ngramSlice exNgram none (some 0)).char_start
        > (ngramSlice exNgram none (some 0)).char_end
    ∧ ({ context := exCtx, char_start := 9, char_end := 2 : Ngram }).char_start
        > ({ context := exCtx, char_start := 9, char_end := 2 : Ngram }).char_end := by
  refine ⟨rfl, ?_, by norm_num⟩
  show (4 : Int) > (if (0:Int) ≤ 0 then 4 + 0 - 1 else 12 + 0)
  norm_num

/-- A natural index into a list is in Python range and resolved
directly by `pyIntIndex`. -/
theorem pyIntIndex_nat {α : Type} (xs : List α) (k : Nat) (h : k < xs.length) :
    pyIntIndex xs (k : Int) = some (xs.get ⟨k, h⟩) := by
  simp only [pyIntIndex]
  rw [if_neg (by omega : ¬ ((k : Int) < (0 : Int)))]
  rw [if_pos (by omega : (0 : Int) ≤ (k : Int))]
  simp [List.get?_eq_get h]

/-- C2: for a Context with strictly increasing `char_offsets` and any
in-range word index `wi`, `char_to_word_index (word_to_char_index wi)`
round-trips to `wi` — equivalently, a character index equal to
`char_offsets[wi]` exactly is mapped back to word index `wi`. -/
theorem c2_round_trip (g : Ngram) (wi : Nat)
    (hinc : strictlyIncreasing g.context.char_offsets = true)
    (h : wi < g.context.char_offsets.length) :
    ∃ ci, word_to_char_index g (wi : Int) = some ci
      ∧ char_to_word_index g ci = some (wi : Int) := by
  refine ⟨g.context.char_offsets.get ⟨wi, h⟩, ?_, ?_⟩
  · exact pyIntIndex_nat _ wi h
  · have hx := cwiGo_exact g.context.char_offsets 0 wi h hinc
    simpa [char_to_word_index] using hx

/-- Witness for C2 at the example Context, word index 2. -/
theorem c2_round_trip_witness :
    ∃ ci, word_to_char_index exNgram ((2 : Nat) : Int) = some ci
      ∧ char_to_word_index exNgram ci = some ((2 : Nat) : Int) :=
  c2_round_trip exNgram 2 (by decide) (by decide)

/-- C10: on a non-empty strictly increasing offsets sequence the
`char_to_word_index` scan totalises the out-of-range cases — a
character index below `char_offsets[0]` is mapped to `-1` (first loop
index 0, decremented) and one at or past the last offset to the final
word index `length - 1`; in both cases a result is returned (`some`),
never an exception. -/
theorem c10_scan_extremes (g : Ngram) (ci : Int)
    (hinc : strictlyIncreasing g.context.char_offsets = true) :
    (∀ o, g.context.char_offsets.head? = some o → ci < o →
        char_to_word_index g ci = some (-1))
    ∧ (∀ o, g.context.char_offsets.getLast? = some o → o ≤ ci →
        char_to_word_index g ci
          = some ((g.context.char_offsets.length : Int) - 1)) := by
  constructor
  · intro o hhead hlt
    rcases hl : g.context.char_offsets with _ | ⟨co, rest⟩
    · rw [hl] at hhead; simp at hhead
    · rw [hl] at hhead
      have hco : co = o := by simpa using hhead
      subst hco
      have hne : ¬ (ci = co) := by omega
      unfold char_to_word_index
      rw [hl]
      cases rest with
      | nil => simp [cwiGo, hne, hlt]
      | cons b r2 => simp [cwiGo, hne, hlt]
  · intro o hlast hge
    unfold char_to_word_index
    have hx := cwiGo_last g.context.char_offsets o hlast hinc hge 0
    rw [hx]
    norm_num

/-- Witness for C10 at the example Context: `-3` (below the first
offset) maps to `-1`, `99` (past the last offset) to the final word
index. -/
theorem c10_scan_extremes_witness :
    char_to_word_index exNgram (-3) = some (-1)
    ∧ char_to_word_index exNgram 99
        = some ((exNgram.context.char_offsets.length : Int) - 1) :=
  ⟨(c10_scan_extremes exNgram (-3) (by decide)).1 0 rfl (by norm_num),
   (c10_scan_extremes exNgram 99 (by decide)).2 14 rfl (by norm_num)⟩

/-- C8 amended: construction performs no validation — slicing with a
range key always succeeds (never signals an error), and a stop of `0`
always yields `char_end = char_start - 1 < char_start`, a malformed
span that is silently tolerated. -/
theorem c8_no_construction_check (g : Ngram) (s e : Option Int) :
    (ngramGetItem g (.pySlice s e)).isOk = true
    ∧ (ngramSlice g none (some 0)).char_end
        = (ngramSlice g none (some 0)).char_start - 1
    ∧ (ngramSlice g none (some 0)).char_end
        < (ngramSlice g none (some 0)).char_start := by
  refine ⟨rfl, ?_, ?_⟩
  · show (if (0:Int) ≤ 0 then g.char_start + 0 - 1 else g.char_end + 0)
        = g.char_start - 1
    norm_num
  · show (if (0:Int) ≤ 0 then g.char_start + 0 - 1 else g.char_end + 0)
        < g.char_start
    norm_num

/-- Clamped drop/take (the Python slice normalisation) agrees with the
raw drop/take under Nat truncated subtraction. -/
theorem drop_take_clamp {α : Type} (l : List α) (an bn : Nat) :
    (l.drop (min an l.length)).take (min bn l.length - min an l.length)
      = (l.drop an).take (bn - an) := by
  rcases le_or_lt an l.length with h1 | h1
  · rw [min_eq_left h1]
    rcases le_or_lt bn l.length with h2 | h2
    · rw [min_eq_left h2]
    · rw [min_eq_right (le_of_lt h2)]
      have hd : (l.drop an).length = l.length - an := List.length_drop an l
      rw [List.take_of_length_le (by omega), List.take_of_length_le (by omega)]
  · rw [min_eq_right (le_of_lt h1)]
    rw [List.drop_length, List.drop_eq_nil_of_le (le_of_lt h1)]
    simp

/-- A Python string slice with an exclusive stop `b + 1` is the
inclusive substring up to position `b`, for in-order non-negative
bounds. -/
theorem pyStrSlice_eq_inclusive (s : String) (a b : Int)
    (h1 : 0 ≤ a) (h2 : a ≤ b + 1) :
    pyStrSlice s a (b + 1) = inclusiveSubstr s a b := by
  simp only [pyStrSlice, pyListSlice, pySliceBound, inclusiveSubstr]
  rw [if_neg (by omega : ¬ (a < 0)), if_neg (by omega : ¬ (b + 1 < 0))]
  have ht : (b - a + 1).toNat = (b + 1).toNat - a.toNat := by omega
  rw [ht, drop_take_clamp]

/-- Length of an in-bounds Python string slice. -/
theorem pyStrSlice_length (s : String) (a b : Int)
    (h1 : 0 ≤ a) (h2 : a ≤ b) (h3 : b ≤ (s.length : Int)) :
    ((pyStrSlice s a b).length : Int) = b - a := by
  simp only [pyStrSlice, pyListSlice, pySliceBound]
  rw [if_neg (by omega : ¬ (a < 0)), if_neg (by omega : ¬ (b < 0))]
  show ((((s.data.drop (min a.toNat s.data.length)).take
      (min b.toNat s.data.length - min a.toNat s.data.length)).length : Nat) : Int)
    = b - a
  have hn : s.length = s.data.length := rfl
  rw [List.length_take, List.length_drop]
  omega

/-- C3: `get_attrib_span` with the literal attribute name `words`
returns exactly the inclusive substring of the Context's raw text from
`get_sent_char_start()` to `get_sent_char_end()` and is independent of
the separator; for any other attribute name it returns the tokens of
`get_attrib_tokens` (the attribute sequence sliced by the inclusive
word range) joined with the separator. -/
theorem c3_attrib_span (g : Ngram) (a sep sep2 : String) (scs sce : Int)
    (h1 : get_sent_char_start g = some scs)
    (h2 : get_sent_char_end g = some sce)
    (h3 : 0 ≤ scs) (h4 : scs ≤ sce + 1) :
    get_attrib_span g "words" sep = some (inclusiveSubstr g.context.text scs sce)
    ∧ get_attrib_span g "words" sep = get_attrib_span g "words" sep2
    ∧ (a ≠ "words" →
        get_attrib_span g a sep = (get_attrib_tokens g a).map (sepJoin sep))
    ∧ (∀ toks ws we, contextAttrib g.context a = some toks →
        get_word_start g = some ws → get_word_end g = some we →
        get_attrib_tokens g a = some (pyListSlice toks ws (we + 1))) := by
  refine ⟨?_, rfl, ?_, ?_⟩
  · simp only [get_attrib_span, if_pos rfl, h1, h2, if_true]
    rw [pyStrSlice_eq_inclusive g.context.text scs sce h3 h4]
  · intro h
    simp only [get_attrib_span, if_neg h]
  · intro toks ws we ha hws hwe
    simp only [get_attrib_tokens, ha, hws, hwe]

/-- Witness for C3 at the example Ngram, for the word-text attribute
and the `poses` attribute. -/
theorem c3_attrib_span_witness :
    get_attrib_span exNgram "words" " "
      = some (inclusiveSubstr exNgram.context.text 4 12)
    ∧ get_attrib_span exNgram "poses" "/"
      = (get_attrib_tokens exNgram "poses").map (sepJoin "/") :=
  ⟨(c3_attrib_span exNgram "poses" " " "-" 4 12 rfl rfl (by norm_num)
      (by norm_num)).1,
   (c3_attrib_span exNgram "poses" "/" "-" 4 12 rfl rfl (by norm_num)
      (by norm_num)).2.2.1 (by decide)⟩

/-- C5: `len(g)` is `char_end - char_start + 1`, and when the
Context-relative character range of the span lies within the bounds of
the Context's text (and the span is well-formed), this equals the
length of the string returned by `get_span`. -/
theorem c5_length (g : Ngram) (sep : String) (off : Int)
    (hoff : get_sent_offset g = some off)
    (hvalid : g.char_start ≤ g.char_end)
    (hlo : 0 ≤ g.char_start - off)
    (hhi : g.char_end - off < (g.context.text.length : Int)) :
    ngramLen g = g.char_end - g.char_start + 1
    ∧ ∃ s, get_span g sep = some s ∧ (s.length : Int) = ngramLen g := by
  refine ⟨rfl, pyStrSlice g.context.text (g.char_start - off)
    (g.char_end - off + 1), ?_, ?_⟩
  · simp only [get_span, get_attrib_span, if_pos rfl, get_sent_char_start,
      get_sent_char_end, hoff, Option.map_some', if_true]
  · have hlen := pyStrSlice_length g.context.text (g.char_start - off)
      (g.char_end - off + 1) hlo (by omega) (by omega)
    rw [hlen]
    simp only [ngramLen]
    ring

/-- Witness for C5 at the example Ngram. -/
theorem c5_length_witness :
    ngramLen exNgram = exNgram.char_end - exNgram.char_start + 1
    ∧ ∃ s, get_span exNgram " " = some s ∧ (s.length : Int) = ngramLen exNgram :=
  c5_length exNgram " " 0 rfl (by decide) (by decide) (by decide)

/-- `list.remove` after appending `c` to a list with no element equal
to `c` deletes exactly the appended element. -/
theorem csRemove_append_of_not_mem (xs : List Ngram) (c : Ngram)
    (hall : ∀ x ∈ xs, ngramEq x c = false) :
    csRemove c (xs ++ [c]) = some xs := by
  induction xs with
  | nil => simp [csRemove, ngramEq_refl]
  | cons x rest ih =>
      have hx : ngramEq x c = false := hall x (List.mem_cons_self x rest)
      have ih2 := ih (fun y hy => hall y (List.mem_cons_of_mem x hy))
      simp only [List.cons_append, csRemove, hx, Bool.false_eq_true, if_false,
        List.append_eq, ih2, Option.map_some']

/-- `list.remove` after an append always succeeds and restores the
pre-append length. -/
theorem csRemove_append_length (xs : List Ngram) (c : Ngram) :
    ∃ ys, csRemove c (xs ++ [c]) = some ys ∧ ys.length = xs.length := by
  induction xs with
  | nil => exact ⟨[], by simp [csRemove, ngramEq_refl], rfl⟩
  | cons x rest ih =>
      obtain ⟨ys, hys, hlen⟩ := ih
      by_cases hx : ngramEq x c = true
      · exact ⟨rest ++ [c], by simp [csRemove, hx], by simp⟩
      · rw [Bool.not_eq_true] at hx
        refine ⟨x :: ys, ?_, ?_⟩
        · simp only [List.cons_append, csRemove, hx, Bool.false_eq_true,
            if_false, List.append_eq, hys, Option.map_some']
        · simp [hlen]

/-- C9 amended: `append(c)` followed by `remove(c)` always restores the
pre-append length, and restores the pre-append sequence whenever no
element of it compares equal to `c`; `remove` deletes the first
matching element, so the sequence is not restored in general when `c`
already occurs. -/
theorem c9_append_remove (xs : List Ngram) (c : Ngram) :
    ((∀ x ∈ xs, ngramEq x c = false) →
      csRemove c (csAppend xs c) = some xs)
    ∧ (∃ ys, csRemove c (csAppend xs c) = some ys ∧ csLen ys = csLen xs) :=
  ⟨fun hall => csRemove_append_of_not_mem xs c hall,
   csRemove_append_length xs c⟩

/-- C9 counterexample: appending an already-present candidate and then
removing it does not restore the sequence — starting from
`[exNgram, exNgramB]`, append then remove of `exNgram` yields
`[exNgramB, exNgram]`, a different order. -/
theorem c9_counterexample :
    csRemove exNgram (csAppend [exNgram, exNgramB] exNgram)
      = some [exNgramB, exNgram]
    ∧ [exNgramB, exNgram] ≠ [exNgram, exNgramB] := by
  constructor
  · decide
  · decide

/-- Witness for the amended C9 at a singleton candidate list. -/
theorem c9_append_remove_witness :
    csRemove exNgram (csAppend [exNgramB] exNgram) = some [exNgramB] :=
  (c9_append_remove [exNgramB] exNgram).1 (by decide)

end Snorkel
